import Mathlib

/-!
Verification of the binary search tree in `DSA-Labs/Binary_tree.py`.

The Python classes `BSTNode`/`BST` are embedded as an inductive tree:
`None` becomes `Tree.leaf`, a `BSTNode` with fields `data`, `left`, `right`
becomes `Tree.node left data right`.  The mutating methods become pure
functions returning the updated tree; keys are modelled as `Int` (the
source imposes only an order on keys, and its demo uses integers).
-/

namespace BinaryTree

inductive Tree where
  | leaf : Tree
  | node : Tree → Int → Tree → Tree
deriving DecidableEq, Repr

open Tree

/-- Embedding of `BST.insert` / `BST._insert`: descending from the root,
`data < node.data` goes left, otherwise right; a new node is attached
where a child is absent.  Attaching at an absent child coincides with
inserting into the empty subtree. -/
def insert : Tree → Int → Tree
  | leaf, d => node leaf d leaf
  | node l k r, d =>
    if d < k then node (insert l d) k r
    else node l k (insert r d)

/-- A freshly constructed `BST()` followed by the given sequence of
`insert` calls. -/
def insertAll (ks : List Int) : Tree :=
  ks.foldl insert leaf

/-- Embedding of `BST.search` / `BST._search`: `False` at an absent node,
`True` on an equal key, otherwise descend left or right by comparison. -/
def search : Tree → Int → Bool
  | leaf, _ => false
  | node l k r, d =>
    if k = d then true
    else if d < k then search l d
    else search r d

/-- Embedding of `BST.inorder_traversal`: the sequence of keys printed
(left subtree, own key, right subtree). -/
def inorder : Tree → List Int
  | leaf => []
  | node l k r => inorder l ++ k :: inorder r

/-- Number of nodes of a tree. -/
def size : Tree → Nat
  | leaf => 0
  | node l _ r => size l + size r + 1

/-- `queue.append(child)` is guarded by `if node.left:` / `if node.right:`
in the Python loop: an absent child contributes nothing. -/
def enqueueChild : Tree → List Tree
  | leaf => []
  | node l k r => [node l k r]

/-- Total size of the trees in the queue. -/
def queueSize (q : List Tree) : Nat :=
  (q.map size).sum

/-- Embedding of the queue loop of `level_order_traversal`: dequeue a
node, emit its key, enqueue its present children. -/
def bfsAux : List Tree → List Int
  | [] => []
  | leaf :: q => bfsAux q
  | node l k r :: q => k :: bfsAux (q ++ enqueueChild l ++ enqueueChild r)
termination_by q => (queueSize q, q.length)
decreasing_by
  · have h : queueSize (leaf :: q) = queueSize q := by simp [queueSize, size]
    rw [h]
    exact Prod.Lex.right _ (Nat.lt_succ_self _)
  · apply Prod.Lex.left
    cases l <;> cases r <;> simp [queueSize, enqueueChild, size] <;> omega

/-- Embedding of `level_order_traversal`: a `None` root returns at once,
otherwise the queue is seeded with the root. -/
def level_order_traversal : Tree → List Int
  | leaf => []
  | node l k r => bfsAux [node l k r]

/-- All keys stored in a tree satisfy the boolean predicate `p`. -/
def allB (p : Int → Bool) : Tree → Bool
  | leaf => true
  | node l k r => p k && allB p l && allB p r

/-- The binary-search-tree invariant of the spec: at every node, every key
in the left subtree is strictly below the node's key and every key in the
right subtree is greater than or equal to it. -/
def isBST : Tree → Bool
  | leaf => true
  | node l k r =>
    allB (fun x => decide (x < k)) l && allB (fun x => decide (k ≤ x)) r
      && isBST l && isBST r

lemma allB_insert {p : Int → Bool} {t : Tree} {d : Int}
    (ht : allB p t = true) (hd : p d = true) : allB p (insert t d) = true := by
  induction t with
  | leaf => simp [insert, allB, hd]
  | node l k r ihl ihr =>
    simp only [allB, Bool.and_eq_true] at ht
    by_cases h : d < k
    · simp [insert, h, allB, ht.1.1, ht.2, ihl ht.1.2]
    · simp [insert, h, allB, ht.1.1, ht.1.2, ihr ht.2]

lemma isBST_insert {t : Tree} {d : Int} (ht : isBST t = true) :
    isBST (insert t d) = true := by
  induction t with
  | leaf => simp [insert, isBST, allB]
  | node l k r ihl ihr =>
    simp only [isBST, Bool.and_eq_true] at ht
    obtain ⟨⟨⟨hl, hr⟩, hbl⟩, hbr⟩ := ht
    by_cases h : d < k
    · simp [insert, h, isBST, allB_insert hl (by simpa using h), hr,
        ihl hbl, hbr]
    · simp [insert, h, isBST, hl,
        allB_insert hr (by simpa using not_lt.mp h), hbl, ihr hbr]

lemma isBST_insertAll (ks : List Int) : isBST (insertAll ks) = true := by
  suffices h : ∀ t, isBST t = true → isBST (List.foldl insert t ks) = true by
    exact h leaf rfl
  induction ks with
  | nil => intro t ht; simpa using ht
  | cons k ks ih =>
    intro t ht
    exact ih (insert t k) (isBST_insert ht)

lemma search_insert_self (t : Tree) (d : Int) :
    search (insert t d) d = true := by
  induction t with
  | leaf => simp [insert, search]
  | node l k r ihl ihr =>
    by_cases h : d < k
    · simp [insert, h, search, ne_of_gt h, ihl]
    · rcases eq_or_lt_of_le (not_lt.mp h) with heq | hlt
      · simp [insert, h, search, heq]
      · by_cases hk : k = d
        · simp [insert, h, search, hk]
        · simp [insert, h, search, hk, not_lt.mpr (le_of_lt hlt), ihr]

lemma search_insert_mono {t : Tree} {k : Int} (d : Int)
    (h : search t k = true) : search (insert t d) k = true := by
  induction t with
  | leaf => simp [search] at h
  | node l a r ihl ihr =>
    by_cases hd : d < a
    · simp only [search] at h
      by_cases ha : a = k
      · subst ha; simp [insert, hd, search]
      · simp only [ha, if_false] at h
        by_cases hk : k < a
        · simp only [hk, if_true] at h
          simp [insert, hd, search, ha, hk, ihl h]
        · simp only [hk, if_false] at h
          simp [insert, hd, search, ha, hk, h]
    · simp only [search] at h
      by_cases ha : a = k
      · subst ha; simp [insert, hd, search]
      · simp only [ha, if_false] at h
        by_cases hk : k < a
        · simp only [hk, if_true] at h
          simp [insert, hd, search, ha, hk, h]
        · simp only [hk, if_false] at h
          simp [insert, hd, search, ha, hk, ihr h]

lemma search_foldl_mono {k : Int} (ds : List Int) :
    ∀ t : Tree, search t k = true → search (List.foldl insert t ds) k = true := by
  induction ds with
  | nil => intro t h; simpa using h
  | cons d ds ih =>
    intro t h
    exact ih (insert t d) (search_insert_mono d h)

lemma search_insertAll_mem {ks : List Int} {k : Int} (hm : k ∈ ks) :
    search (insertAll ks) k = true := by
  suffices h : ∀ t : Tree, search (List.foldl insert t ks) k = true by
    exact h leaf
  induction ks with
  | nil => simp at hm
  | cons d ds ih =>
    intro t
    rcases List.mem_cons.mp hm with heq | hmem
    · subst heq
      exact search_foldl_mono ds (insert t k) (search_insert_self t k)
    · exact ih hmem (insert t d)

lemma inorder_insert_perm (t : Tree) (d : Int) :
    (inorder (insert t d)).Perm (d :: inorder t) := by
  induction t with
  | leaf => simp [insert, inorder]
  | node l k r ihl ihr =>
    by_cases h : d < k
    · simp only [insert, h, if_true, inorder]
      simpa using ihl.append_right (k :: inorder r)
    · simp only [insert, h, if_false, inorder]
      refine ((ihr.cons k).append_left _).trans ?_
      simpa using @List.perm_middle Int d (inorder l ++ [k]) (inorder r)

lemma inorder_insertAll_perm (ks : List Int) :
    (inorder (insertAll ks)).Perm ks := by
  suffices h : ∀ t : Tree,
      (inorder (List.foldl insert t ks)).Perm (ks ++ inorder t) by
    simpa [insertAll, inorder] using h leaf
  induction ks with
  | nil => intro t; simp
  | cons d ds ih =>
    intro t
    simp only [List.foldl_cons, List.cons_append]
    refine (ih (insert t d)).trans ?_
    refine ((inorder_insert_perm t d).append_left ds).trans ?_
    exact @List.perm_middle Int d ds (inorder t)

lemma allB_mem_inorder {p : Int → Bool} {t : Tree} (ht : allB p t = true)
    {x : Int} (hx : x ∈ inorder t) : p x = true := by
  induction t with
  | leaf => simp [inorder] at hx
  | node l k r ihl ihr =>
    simp only [allB, Bool.and_eq_true] at ht
    simp only [inorder, List.mem_append, List.mem_cons] at hx
    rcases hx with hx | hx | hx
    · exact ihl ht.1.2 hx
    · exact hx ▸ ht.1.1
    · exact ihr ht.2 hx

lemma sorted_inorder {t : Tree} (ht : isBST t = true) :
    (inorder t).Pairwise (· ≤ ·) := by
  induction t with
  | leaf => simp [inorder]
  | node l k r ihl ihr =>
    simp only [isBST, Bool.and_eq_true] at ht
    obtain ⟨⟨⟨hl, hr⟩, hbl⟩, hbr⟩ := ht
    simp only [inorder]
    rw [List.pairwise_append]
    refine ⟨ihl hbl, ?_, ?_⟩
    · rw [List.pairwise_cons]
      refine ⟨fun b hb => ?_, ihr hbr⟩
      simpa using allB_mem_inorder hr hb
    · intro a ha b hb
      have hak : a < k := by simpa using allB_mem_inorder hl ha
      rcases List.mem_cons.mp hb with rfl | hb
      · exact le_of_lt hak
      · have hkb : k ≤ b := by simpa using allB_mem_inorder hr hb
        exact le_of_lt (lt_of_lt_of_le hak hkb)

lemma inorder_enqueueChild (t : Tree) :
    ((enqueueChild t).map inorder).flatten = inorder t := by
  cases t <;> simp [enqueueChild, inorder]

lemma bfsAux_perm (q : List Tree) :
    (bfsAux q).Perm ((q.map inorder).flatten) := by
  induction q using bfsAux.induct with
  | case1 => simp [bfsAux]
  | case2 q ih => simpa [bfsAux, inorder] using ih
  | case3 l k r q ih =>
    have hW : (((q ++ enqueueChild l ++ enqueueChild r).map inorder).flatten)
        = ((q.map inorder).flatten ++ inorder l ++ inorder r) := by
      simp [inorder_enqueueChild]
    rw [hW] at ih
    simp only [bfsAux, List.map_cons, List.flatten_cons, inorder]
    refine (ih.cons k).trans ?_
    have h1 : ((inorder l ++ k :: inorder r) ++ (q.map inorder).flatten)
        = inorder l ++ k :: (inorder r ++ (q.map inorder).flatten) := by simp
    rw [h1]
    refine List.Perm.trans ?_
      (@List.perm_middle Int k (inorder l) (inorder r ++ (q.map inorder).flatten)).symm
    refine List.Perm.cons k ?_
    simpa [List.append_assoc] using
      @List.perm_append_comm Int ((q.map inorder).flatten) (inorder l ++ inorder r)

lemma level_order_perm_inorder (t : Tree) :
    (level_order_traversal t).Perm (inorder t) := by
  cases t with
  | leaf => simp [level_order_traversal, inorder]
  | node l k r =>
    simpa [inorder] using bfsAux_perm [node l k r]

/-- Height of a tree: a bound on the recursion depth of `_insert`,
`_search` and `inorder_traversal`. -/
def height : Tree → Nat
  | leaf => 0
  | node l _ r => max (height l) (height r) + 1

/-- `BST._insert` with an explicit bound on recursion depth: `none` means
the recursion budget ran out. -/
def insertFuel : Nat → Tree → Int → Option Tree
  | 0, _, _ => none
  | _ + 1, leaf, d => some (node leaf d leaf)
  | n + 1, node l k r, d =>
    if d < k then (insertFuel n l d).map (fun t => node t k r)
    else (insertFuel n r d).map (fun t => node l k t)

/-- `BST._search` with an explicit bound on recursion depth. -/
def searchFuel : Nat → Tree → Int → Option Bool
  | 0, _, _ => none
  | _ + 1, leaf, _ => some false
  | n + 1, node l k r, d =>
    if k = d then some true
    else if d < k then searchFuel n l d
    else searchFuel n r d

/-- `BST.inorder_traversal` with an explicit bound on recursion depth. -/
def inorderFuel : Nat → Tree → Option (List Int)
  | 0, _ => none
  | _ + 1, leaf => some []
  | n + 1, node l k r =>
    match inorderFuel n l, inorderFuel n r with
    | some a, some b => some (a ++ k :: b)
    | _, _ => none

/-- The queue loop of `level_order_traversal` with an explicit bound on
the number of loop iterations. -/
def bfsFuel : Nat → List Tree → Option (List Int)
  | _, [] => some []
  | 0, _ :: _ => none
  | n + 1, leaf :: q => bfsFuel n q
  | n + 1, node l k r :: q =>
    (bfsFuel n (q ++ enqueueChild l ++ enqueueChild r)).map (k :: ·)

lemma insertFuel_eq {t : Tree} {n : Nat} (h : height t < n) (d : Int) :
    insertFuel n t d = some (insert t d) := by
  induction t generalizing n with
  | leaf =>
    cases n with
    | zero => omega
    | succ m => simp [insertFuel, insert]
  | node l k r ihl ihr =>
    cases n with
    | zero => omega
    | succ m =>
      simp only [height] at h
      have hm : max (height l) (height r) < m := Nat.lt_of_succ_lt_succ h
      have h1 : height l < m := lt_of_le_of_lt (le_max_left _ _) hm
      have h2 : height r < m := lt_of_le_of_lt (le_max_right _ _) hm
      by_cases hd : d < k
      · simp [insertFuel, hd, insert, ihl h1]
      · simp [insertFuel, hd, insert, ihr h2]

lemma searchFuel_eq {t : Tree} {n : Nat} (h : height t < n) (d : Int) :
    searchFuel n t d = some (search t d) := by
  induction t generalizing n with
  | leaf =>
    cases n with
    | zero => omega
    | succ m => simp [searchFuel, search]
  | node l k r ihl ihr =>
    cases n with
    | zero => omega
    | succ m =>
      simp only [height] at h
      have hm : max (height l) (height r) < m := Nat.lt_of_succ_lt_succ h
      have h1 : height l < m := lt_of_le_of_lt (le_max_left _ _) hm
      have h2 : height r < m := lt_of_le_of_lt (le_max_right _ _) hm
      by_cases hk : k = d
      · simp [searchFuel, hk, search]
      · by_cases hd : d < k
        · simp [searchFuel, hk, hd, search, ihl h1]
        · simp [searchFuel, hk, hd, search, ihr h2]

lemma inorderFuel_eq {t : Tree} {n : Nat} (h : height t < n) :
    inorderFuel n t = some (inorder t) := by
  induction t generalizing n with
  | leaf =>
    cases n with
    | zero => omega
    | succ m => simp [inorderFuel, inorder]
  | node l k r ihl ihr =>
    cases n with
    | zero => omega
    | succ m =>
      simp only [height] at h
      have hm : max (height l) (height r) < m := Nat.lt_of_succ_lt_succ h
      have h1 : height l < m := lt_of_le_of_lt (le_max_left _ _) hm
      have h2 : height r < m := lt_of_le_of_lt (le_max_right _ _) hm
      simp [inorderFuel, inorder, ihl h1, ihr h2]

lemma length_enqueueChild (t : Tree) : (enqueueChild t).length ≤ 1 := by
  cases t <;> simp [enqueueChild]

lemma queueSize_enqueueChild (t : Tree) :
    queueSize (enqueueChild t) = size t := by
  cases t <;> simp [enqueueChild, queueSize, size]

lemma queueSize_append (q q' : List Tree) :
    queueSize (q ++ q') = queueSize q + queueSize q' := by
  simp [queueSize]

lemma bfsFuel_eq {q : List Tree} {n : Nat}
    (h : 2 * queueSize q + q.length ≤ n) : bfsFuel n q = some (bfsAux q) := by
  induction q using bfsAux.induct generalizing n with
  | case1 => cases n <;> simp [bfsFuel, bfsAux]
  | case2 q ih =>
    cases n with
    | zero => simp only [List.length_cons] at h; omega
    | succ m =>
      have hq : queueSize (leaf :: q) = queueSize q := by
        simp [queueSize, size]
      rw [hq, List.length_cons] at h
      simp only [bfsFuel, bfsAux]
      exact ih (by omega)
  | case3 l k r q ih =>
    cases n with
    | zero => simp only [List.length_cons] at h; omega
    | succ m =>
      have h1 : queueSize (node l k r :: q)
          = queueSize q + size l + size r + 1 := by
        simp [queueSize, size]; omega
      have h2 : queueSize (q ++ enqueueChild l ++ enqueueChild r)
          = queueSize q + size l + size r := by
        rw [queueSize_append, queueSize_append,
          queueSize_enqueueChild, queueSize_enqueueChild]
      have h3 : (q ++ enqueueChild l ++ enqueueChild r).length
          ≤ q.length + 2 := by
        have e1 := length_enqueueChild l
        have e2 := length_enqueueChild r
        simp only [List.length_append]
        omega
      rw [h1, List.length_cons] at h
      have hfit : 2 * queueSize (q ++ enqueueChild l ++ enqueueChild r)
          + (q ++ enqueueChild l ++ enqueueChild r).length ≤ m := by
        rw [h2]; omega
      have hW := ih hfit
      rw [List.append_assoc] at hW
      simp [bfsFuel, bfsAux, hW]

/-- The shape change the Python `insert` performs: the result tree is the
input tree with exactly one absent child position replaced by one freshly
created node carrying the inserted key; every pre-existing node keeps its
key and both of its links. -/
inductive InsertShape (d : Int) : Tree → Tree → Prop where
  | here : InsertShape d leaf (node leaf d leaf)
  | left {l t : Tree} (k : Int) (r : Tree) :
      InsertShape d l t → InsertShape d (node l k r) (node t k r)
  | right {r t : Tree} (l : Tree) (k : Int) :
      InsertShape d r t → InsertShape d (node l k r) (node l k t)

lemma insert_insertShape (t : Tree) (d : Int) :
    InsertShape d t (insert t d) := by
  induction t with
  | leaf => exact InsertShape.here
  | node l k r ihl ihr =>
    by_cases h : d < k
    · simpa [insert, h] using InsertShape.left k r ihl
    · simpa [insert, h] using InsertShape.right l k ihr

/-- `BST._search` with the tree state threaded through explicitly: the
method reads the tree and returns a boolean, and the state it hands back
is what remains of the tree after the call. -/
def searchSt : Tree → Int → Bool × Tree
  | leaf, _ => (false, leaf)
  | node l k r, d =>
    if k = d then (true, node l k r)
    else if d < k then
      ((searchSt l d).1, node (searchSt l d).2 k r)
    else
      ((searchSt r d).1, node l k (searchSt r d).2)

lemma searchSt_spec (t : Tree) (d : Int) :
    (searchSt t d).2 = t ∧ (searchSt t d).1 = search t d := by
  induction t with
  | leaf => simp [searchSt, search]
  | node l k r ihl ihr =>
    by_cases hk : k = d
    · simp [searchSt, hk, search]
    · by_cases hd : d < k
      · simp [searchSt, hk, hd, search, ihl.1, ihl.2]
      · simp [searchSt, hk, hd, search, ihr.1, ihr.2]

lemma bfsAux_singleton (t : Tree) : bfsAux [t] = level_order_traversal t := by
  cases t with
  | leaf => simp [bfsAux, level_order_traversal]
  | node l k r => rfl

/-- C1: every tree reachable by a sequence of `insert` calls from a
freshly constructed empty tree satisfies the BST invariant — at every
node, every key in the left subtree is strictly less than the node's key
and every key in the right subtree is greater than or equal to it — and
a single `insert` preserves the invariant on any tree that has it. -/
theorem bst_invariant_reachable_and_preserved :
    (∀ ks : List Int, isBST (insertAll ks) = true) ∧
    (∀ (t : Tree) (d : Int), isBST t = true → isBST (insert t d) = true) :=
  ⟨isBST_insertAll, fun _ _ ht => isBST_insert ht⟩

/-- Witness for C1: the invariant-preservation half applied at a concrete
tree. -/
theorem bst_invariant_reachable_and_preserved_witness :
    isBST (insert (node leaf 3 leaf) 1) = true :=
  bst_invariant_reachable_and_preserved.2 (node leaf 3 leaf) 1 (by decide)

/-- C2: after inserting any sequence of keys into a freshly constructed
tree, `search` returns true on every key that occurs in the sequence. -/
theorem insert_then_search (ks : List Int) (k : Int) (hm : k ∈ ks) :
    search (insertAll ks) k = true :=
  search_insertAll_mem hm

/-- Witness for C2 at a concrete key sequence. -/
theorem insert_then_search_witness :
    search (insertAll [5, 2, 9]) 9 = true :=
  insert_then_search [5, 2, 9] 9 (by decide)

/-- C3: for every sequence of inserted keys, the in-order traversal of the
resulting tree is non-decreasing and is a permutation of the inserted
keys — the sorted multiset of the inserts, with duplicate counts
preserved. -/
theorem inorder_sorted_and_complete (ks : List Int) :
    (inorder (insertAll ks)).Pairwise (· ≤ ·) ∧
    (inorder (insertAll ks)).Perm ks :=
  ⟨sorted_inorder (isBST_insertAll ks), inorder_insertAll_perm ks⟩

/-- C4: on every tree built by a sequence of inserts, the level-order
traversal emits exactly the same multiset of keys as the in-order
traversal: the two outputs are permutations of one another, so each node
contributes its key exactly once to either output. -/
theorem level_order_matches_inorder (ks : List Int) :
    (level_order_traversal (insertAll ks)).Perm (inorder (insertAll ks)) :=
  level_order_perm_inorder (insertAll ks)

/-- C5: a key equal to the key of the node reached on the descent is
routed into that node's right subtree; every insert adds exactly one key
to the stored multiset (duplicates are retained, not rejected or merged);
and inserting 10 then 10 into a fresh tree gives in-order output
`[10, 10]`. -/
theorem duplicate_goes_right_and_is_kept :
    (∀ (l r : Tree) (k : Int),
      insert (node l k r) k = node l k (insert r k)) ∧
    (∀ (t : Tree) (d : Int),
      (inorder (insert t d)).length = (inorder t).length + 1) ∧
    inorder (insertAll [10, 10]) = [10, 10] := by
  refine ⟨?_, ?_, by decide⟩
  · intro l r k
    simp [insert]
  · intro t d
    simpa using (inorder_insert_perm t d).length_eq

/-- C6: inserting 50, 30, 70, 20, 40 in that order yields in-order output
`[20, 30, 40, 50, 70]`, level-order output `[50, 30, 70, 20, 40]`,
`search 40 = true` and `search 100 = false`. -/
theorem demo_scenario :
    inorder (insertAll [50, 30, 70, 20, 40]) = [20, 30, 40, 50, 70] ∧
    level_order_traversal (insertAll [50, 30, 70, 20, 40])
        = [50, 30, 70, 20, 40] ∧
    search (insertAll [50, 30, 70, 20, 40]) 40 = true ∧
    search (insertAll [50, 30, 70, 20, 40]) 100 = false := by
  refine ⟨by decide, ?_, by decide, by decide⟩
  simp [insertAll, insert, level_order_traversal, bfsAux, enqueueChild]

/-- C7: on a freshly constructed tree with no inserts, `search` returns
false for every key and both traversals emit the empty sequence. -/
theorem empty_tree_behavior :
    (∀ k : Int, search (insertAll []) k = false) ∧
    inorder (insertAll []) = [] ∧
    level_order_traversal (insertAll []) = [] :=
  ⟨fun _ => rfl, rfl, rfl⟩

/-- C8: insert is strictly additive — the tree after `insert` is the tree
before it with exactly one previously absent child position replaced by
one freshly created node holding the inserted key, every existing node
keeping its key and its other links — and search hands back the tree
state unchanged while returning the same boolean as the pure search. -/
theorem insert_additive_search_pure :
    (∀ (t : Tree) (d : Int), InsertShape d t (insert t d)) ∧
    (∀ (t : Tree) (k : Int),
      (searchSt t k).2 = t ∧ (searchSt t k).1 = search t k) :=
  ⟨insert_insertShape, searchSt_spec⟩

/-- C9: on every tree reachable by a finite sequence of inserts the core
operations run to completion within an explicit finite budget: recursion
bounded by the tree height suffices for insert, search and in-order
traversal, and a number of loop iterations bounded by the node count
suffices for the level-order queue loop — each fuelled run returns `some`
of the value of the corresponding total function. -/
theorem operations_terminate (ks : List Int) (d : Int) :
    insertFuel (height (insertAll ks) + 1) (insertAll ks) d
        = some (insert (insertAll ks) d) ∧
    searchFuel (height (insertAll ks) + 1) (insertAll ks) d
        = some (search (insertAll ks) d) ∧
    inorderFuel (height (insertAll ks) + 1) (insertAll ks)
        = some (inorder (insertAll ks)) ∧
    bfsFuel (2 * size (insertAll ks) + 1) [insertAll ks]
        = some (level_order_traversal (insertAll ks)) := by
  refine ⟨insertFuel_eq (Nat.lt_succ_self _) d,
    searchFuel_eq (Nat.lt_succ_self _) d,
    inorderFuel_eq (Nat.lt_succ_self _), ?_⟩
  rw [← bfsAux_singleton (insertAll ks)]
  refine bfsFuel_eq ?_
  simp [queueSize]

/-- C10: search is monotone under insertion — if a key is found in a tree
built by inserts, it is still found after any further sequence of
inserts. -/
theorem search_monotone_under_insert (ks ds : List Int) (k : Int)
    (h : search (insertAll ks) k = true) :
    search (List.foldl insert (insertAll ks) ds) k = true :=
  search_foldl_mono ds (insertAll ks) h

/-- Witness for C10 at a concrete tree and insert sequence. -/
theorem search_monotone_under_insert_witness :
    search (List.foldl insert (insertAll [4]) [1, 7]) 4 = true :=
  search_monotone_under_insert [4] [1, 7] 4 (by decide)

end BinaryTree
